import Mathlib

/-!
Shallow embedding of the phrase persistence and selection engine
(`db.js` in the repository): a SQLite-backed store of bilingual
phrases with an import pipeline, a priority query, a status update
and per-level statistics.

Modelling choices:
* The `phrases` table is a list of `Phrase` records plus the
  AUTOINCREMENT counter `nextId` (SQLite assigns strictly increasing
  row ids; rows are never deleted by this program).
* `level` is stored as the inductive `Level`: the schema's CHECK
  constraint `level IN ('A1','A2','B1','B2','C1','C2')` guarantees
  every stored level is one of the six values.  Candidate levels
  arriving from JSON are raw strings and are converted at the
  insertion boundary.
* `DATETIME` timestamps (`CURRENT_TIMESTAMP` strings, ordered
  lexicographically = chronologically) are modelled as `Nat`; each
  operation receives the current time as an explicit `now` argument.
* `better-sqlite3`'s synchronous statement calls become pure state
  transformers `DBState → … → DBState × result`.
-/

set_option autoImplicit false

namespace Neurographia

/-- The six proficiency levels, `const LEVELS = ['A1','A2','B1','B2','C1','C2']`,
as an inductive type (the schema CHECK admits exactly these). -/
inductive Level where
  | A1 | A2 | B1 | B2 | C1 | C2
deriving DecidableEq, Repr

/-- `const LEVELS = ['A1', 'A2', 'B1', 'B2', 'C1', 'C2']`. -/
def LEVELS : List String := ["A1", "A2", "B1", "B2", "C1", "C2"]

/-- The rank assigned by `CASE level WHEN 'A1' THEN 1 … WHEN 'C2' THEN 6 END`
in the `getNextPhrase` and `getStats` ORDER BY clauses. -/
def Level.rank : Level → Nat
  | .A1 => 1
  | .A2 => 2
  | .B1 => 3
  | .B2 => 4
  | .C1 => 5
  | .C2 => 6

/-- The TEXT value stored in the `level` column for each `Level`. -/
def Level.toStr : Level → String
  | .A1 => "A1"
  | .A2 => "A2"
  | .B1 => "B1"
  | .B2 => "B2"
  | .C1 => "C1"
  | .C2 => "C2"

/-- Parse a raw level string into the enumeration; `none` exactly when the
string violates the schema CHECK `level IN ('A1','A2','B1','B2','C1','C2')`. -/
def Level.ofString? (s : String) : Option Level :=
  if s = "A1" then some .A1
  else if s = "A2" then some .A2
  else if s = "B1" then some .B1
  else if s = "B2" then some .B2
  else if s = "C1" then some .C1
  else if s = "C2" then some .C2
  else none

/-- One row of the `phrases` table:
`id INTEGER PRIMARY KEY AUTOINCREMENT, ru TEXT, en TEXT, level TEXT,
completed BOOLEAN, created_at DATETIME, updated_at DATETIME`. -/
structure Phrase where
  id : Nat
  ru : String
  en : String
  level : Level
  completed : Bool
  created_at : Nat
  updated_at : Nat
deriving DecidableEq, Repr

/-- Database state: the rows of `phrases` (in rowid order) and the next
AUTOINCREMENT id. -/
structure DBState where
  phrases : List Phrase
  nextId : Nat
deriving DecidableEq, Repr

/-- A fresh database, as produced by `#initSchema` on a new file
(SQLite AUTOINCREMENT starts at 1). -/
def emptyDB : DBState := ⟨[], 1⟩

/-- One candidate object from the imported JSON array.  A field that is
absent on the JavaScript object (`p.ru === undefined`) is `none`. -/
structure Candidate where
  ru : Option String
  en : Option String
  level : Option String
deriving DecidableEq, Repr

/-- JavaScript truthiness of a string-or-undefined field: `undefined` and the
empty string are falsy, every other string is truthy. -/
def strTruthy : Option String → Bool
  | none => false
  | some s => !(s == "")

/-- `LEVELS.includes(p.level)`; `includes(undefined)` is `false`. -/
def levelIncluded : Option String → Bool
  | none => false
  | some s => LEVELS.contains s

/-- The filter predicate of `importPhrases`:
`(p) => p.ru && p.en && LEVELS.includes(p.level)`. -/
def validCand (c : Candidate) : Bool :=
  strTruthy c.ru && strTruthy c.en && levelIncluded c.level

/-- The dedup key of a candidate, `` `${phrase.ru}|${phrase.en}|${phrase.level}` ``
(template-literal join with the `|` delimiter). -/
def candKey (c : Candidate) : String :=
  c.ru.getD ("") ++ "|" ++ c.en.getD ("") ++ "|" ++ c.level.getD ("")

/-- The dedup key of an existing row, `` `${p.ru}|${p.en}|${p.level}` `` built
from the `SELECT ru, en, level FROM phrases` projection. -/
def phraseKey (p : Phrase) : String :=
  p.ru ++ "|" ++ p.en ++ "|" ++ p.level.toStr

/-- `statements.getAllPhrases` keys: the existing-key set built by
`existing.map((p) => ...)` before the batch loop (modelled as a list,
membership playing the role of `Set.has`). -/
def existingKeys (st : DBState) : List String :=
  st.phrases.map phraseKey

/-- The raw row insertion performed by
`INSERT INTO phrases (ru, en, level, completed) VALUES (?, ?, ?, 0)`:
a new row with a fresh id, `completed = 0` and both timestamps set to
`CURRENT_TIMESTAMP`. -/
def insertRow (st : DBState) (now : Nat) (ru en : String) (l : Level) : DBState :=
  { phrases := st.phrases ++ [⟨st.nextId, ru, en, l, false, now, now⟩]
    nextId := st.nextId + 1 }

/-- `statements.insertPhrase` at the SQL level, including the schema CHECK
constraints `length(ru) > 0`, `length(en) > 0` and
`level IN ('A1',…,'C2')`: a violated CHECK makes the statement throw and the
row is not inserted (the `Except.error` case carries no new state, so storage
is unchanged). -/
def insertPhrase (st : DBState) (now : Nat) (ru en lvl : String) :
    Except String DBState :=
  if ru.length = 0 then .error ("CHECK constraint failed: length(ru) > 0")
  else if en.length = 0 then .error ("CHECK constraint failed: length(en) > 0")
  else
    match Level.ofString? lvl with
    | none => .error ("CHECK constraint failed: level IN levels")
    | some l => .ok (insertRow st now ru en l)

/-- The body of `importPhrases`'s transaction: iterate the valid candidates in
order; a candidate whose key is in the pre-computed `existingSet` is counted
skipped, otherwise it is inserted and counted.  The set `es` is NOT extended
with the keys of rows inserted during the loop — exactly as in the source,
which never calls `existingSet.add`.  The `none` level branch is unreachable
when the loop is applied (as in the source) to candidates that passed the
validity filter, whose level is in `LEVELS`. -/
def insertTx (es : List String) (now : Nat) :
    DBState → Nat → Nat → List Candidate → DBState × Nat × Nat
  | st, ins, skip, [] => (st, ins, skip)
  | st, ins, skip, c :: cs =>
    if es.contains (candKey c) then
      insertTx es now st ins (skip + 1) cs
    else
      match Level.ofString? (c.level.getD ("")) with
      | some l => insertTx es now (insertRow st now (c.ru.getD ("")) (c.en.getD ("")) l)
          (ins + 1) skip cs
      | none => insertTx es now st ins skip cs

/-- Outcome of `importPhrases`: either the zero-valid-candidates warning
(`console.warn`, early return, no storage change), or the final
`${inserted} добавлено, ${skipped} пропущено` report. -/
inductive ImportResult where
  | warning
  | done (inserted skipped : Nat)
deriving DecidableEq, Repr

/-- `PhraseDB.importPhrases`, from the point where the JSON array of
candidates is in hand: filter the valid candidates, return the warning if
none remain, otherwise build the existing-key set once and run the insert
transaction over the valid candidates. -/
def importPhrases (st : DBState) (now : Nat) (cands : List Candidate) :
    DBState × ImportResult :=
  let validPhrases := cands.filter validCand
  if validPhrases.isEmpty then
    (st, .warning)
  else
    let es := existingKeys st
    let r := insertTx es now st 0 0 validPhrases
    (r.1, .done r.2.1 r.2.2)

/-- The strict comparison realised by
`ORDER BY CASE level … END, updated_at`: `p` sorts strictly before `q` when
its level rank is smaller, or the ranks tie and its `updated_at` is smaller. -/
def phraseLt (p q : Phrase) : Bool :=
  p.level.rank < q.level.rank ||
    (p.level.rank == q.level.rank && p.updated_at < q.updated_at)

/-- `LIMIT 1` over the ordered scan: the first row not strictly preceded by
any other, i.e. a minimum of `phraseLt` (the earliest such row in rowid
order — full ties in rank and `updated_at` are broken by scan order,
which the spec leaves unspecified). -/
def pickMin : List Phrase → Option Phrase
  | [] => none
  | p :: ps =>
    match pickMin ps with
    | none => some p
    | some q => if phraseLt q p then some q else some p

/-- `statements.getNextPhrase` / `PhraseDB.getNextPhrase`:
`SELECT * FROM phrases WHERE completed = 0 ORDER BY CASE level … END,
updated_at LIMIT 1`, with `|| null` mapping an empty result to `none`. -/
def getNextPhrase (st : DBState) : Option Phrase :=
  pickMin (st.phrases.filter (fun p => p.completed = false))

/-- `statements.updateStatus` / `PhraseDB.updateStatus`:
`UPDATE phrases SET completed = ?, updated_at = CURRENT_TIMESTAMP
WHERE id = ?`; returns the updated state together with `result.changes`,
the number of rows matched by the WHERE clause.  (The `update_timestamp`
trigger re-sets `updated_at = CURRENT_TIMESTAMP`, the same value.) -/
def updateStatus (st : DBState) (now : Nat) (i : Nat) (b : Bool) :
    DBState × Nat :=
  ({ st with
      phrases := st.phrases.map fun p =>
        if p.id = i then { p with completed := b, updated_at := now } else p },
   (st.phrases.filter (fun p => p.id = i)).length)

/-- One row of the `getStats` result. -/
structure StatRow where
  level : Level
  total : Nat
  completed : Nat
  remaining : Nat
deriving DecidableEq, Repr

/-- The six levels in rank order — the order produced by the
`ORDER BY CASE level … END` clause of `getStats`. -/
def allLevels : List Level := [.A1, .A2, .B1, .B2, .C1, .C2]

/-- One level's group in the `getStats` aggregation: the row
`{level, COUNT(*), SUM(completed=1), SUM(completed=0)}` over the rows of
that level, or nothing when the level has no rows (`GROUP BY` emits no
group for it). -/
def statFun (ps : List Phrase) (l : Level) : Option StatRow :=
  let rs := ps.filter (fun p => p.level = l)
  if rs.length = 0 then none
  else some ⟨l, rs.length,
    (rs.filter (fun p => p.completed = true)).length,
    (rs.filter (fun p => p.completed = false)).length⟩

/-- `statements.getStats` / `PhraseDB.getStats`:
`SELECT level, COUNT(*) AS total, SUM(completed=1) AS completed,
SUM(completed=0) AS remaining FROM phrases GROUP BY level ORDER BY rank`.
`GROUP BY` yields one row per level actually present; iterating the six
levels in rank order and dropping the empty groups produces exactly that
row list in the SQL's order. -/
def getStats (st : DBState) : List StatRow :=
  allLevels.filterMap (statFun st.phrases)

/-- The storage operations reachable through the module's public surface
while the program runs (`importPhrases` and `updateStatus` are the only
mutators; reads do not change state). -/
inductive Op where
  | importOp (now : Nat) (cands : List Candidate)
  | statusOp (now : Nat) (id : Nat) (completed : Bool)
deriving DecidableEq, Repr

/-- Apply one mutating operation, discarding its report. -/
def applyOp (st : DBState) : Op → DBState
  | .importOp now cands => (importPhrases st now cands).1
  | .statusOp now i b => (updateStatus st now i b).1

/-- Apply a sequence of operations in order. -/
def applyOps (st : DBState) (ops : List Op) : DBState :=
  ops.foldl applyOp st

/-- `op` is a `setCompleted(i, false)` call. -/
def clearsId (i : Nat) : Op → Bool
  | .statusOp _ j false => j == i
  | _ => false

/-- Well-formedness maintained by SQLite AUTOINCREMENT: every stored row id
is below the next id to be assigned. -/
def wf (st : DBState) : Prop :=
  ∀ p ∈ st.phrases, p.id < st.nextId

/-! Concrete data used by counterexamples and witnesses. -/

/-- The candidate `{ru:"Привет", en:"Hello", level:"A1"}` of the spec scenario. -/
def candPrivet : Candidate := ⟨some ("Привет"), some ("Hello"), some ("A1")⟩

/-- The invalid candidate `{ru:"X", en:"Y", level:"Z9"}` of the spec scenario. -/
def candZ9 : Candidate := ⟨some ("X"), some ("Y"), some ("Z9")⟩

/-- The spec scenario batch: two identical valid candidates and one invalid. -/
def scenarioBatch : List Candidate := [candPrivet, candPrivet, candZ9]

/-- A database holding one phrase whose `ru` text contains the `|` delimiter. -/
def collisionDB : DBState := ⟨[⟨1, "a|b", "c", .A1, false, 0, 0⟩], 2⟩

/-- A candidate whose triple differs from the `collisionDB` row but whose
joined key collides with it: both produce the key string with four segments. -/
def collisionCand : Candidate := ⟨some ("a"), some ("b|c"), some ("A1")⟩

/-- An import source whose only candidate is invalid (empty `ru`): it parses
as an array but contains zero valid candidates. -/
def zeroValidSrc : List Candidate := [⟨some (""), some ("x"), some ("A1")⟩]

/-- A two-phrase store: an incomplete A1 phrase and an incomplete B1 phrase. -/
def twoPhraseDB : DBState :=
  ⟨[⟨1, "a", "b", .B1, false, 0, 5⟩, ⟨2, "c", "d", .A1, false, 0, 9⟩], 3⟩

/-- A one-phrase store holding the imported scenario phrase as row 1. -/
def onePhraseDB : DBState := ⟨[⟨1, "Привет", "Hello", .A1, false, 0, 0⟩], 2⟩

/-- A second valid candidate, distinct from the `onePhraseDB` row. -/
def candKak : Candidate := ⟨some ("Как дела?"), some ("How are you?"), some ("A1")⟩

/-! Level helpers. -/

theorem Level.toStr_ofString {s : String} {l : Level} (h : Level.ofString? s = some l) :
    l.toStr = s := by
  unfold Level.ofString? at h
  split_ifs at h <;> (cases h; simp_all [Level.toStr])

theorem mem_LEVELS_iff {s : String} : s ∈ LEVELS ↔ ∃ l, Level.ofString? s = some l := by
  constructor
  · intro h
    simp only [LEVELS, List.mem_cons, List.not_mem_nil, or_false] at h
    rcases h with h | h | h | h | h | h <;> subst h <;> exact ⟨_, rfl⟩
  · rintro ⟨l, hl⟩
    unfold Level.ofString? at hl
    split_ifs at hl <;> simp_all [LEVELS]

/-! Properties of the ordering used by `getNextPhrase`. -/

theorem phraseLt_iff {p q : Phrase} : phraseLt p q = true ↔
    (p.level.rank < q.level.rank ∨
      (p.level.rank = q.level.rank ∧ p.updated_at < q.updated_at)) := by
  simp [phraseLt]

theorem phraseLt_irrefl (p : Phrase) : phraseLt p p = false := by
  simp [phraseLt]

theorem phraseLt_asymm {p q : Phrase} (h : phraseLt p q = true) : phraseLt q p = false := by
  rw [phraseLt_iff] at h
  cases hqp : phraseLt q p
  · rfl
  · rw [phraseLt_iff] at hqp
    omega

theorem phraseLt_weak_trans {x q p : Phrase} (h1 : phraseLt x q = false)
    (h2 : phraseLt x p = true) : phraseLt q p = true := by
  have h1m : ¬ (x.level.rank < q.level.rank ∨
      (x.level.rank = q.level.rank ∧ x.updated_at < q.updated_at)) := by
    rw [← phraseLt_iff]
    simp [h1]
  rw [phraseLt_iff] at h2 ⊢
  omega

theorem pickMin_cons_none {p : Phrase} {ps : List Phrase} (hm : pickMin ps = none) :
    pickMin (p :: ps) = some p := by
  simp [pickMin, hm]

theorem pickMin_cons_some {p q : Phrase} {ps : List Phrase} (hm : pickMin ps = some q) :
    pickMin (p :: ps) = if phraseLt q p then some q else some p := by
  simp [pickMin, hm]

theorem pickMin_eq_none {l : List Phrase} : pickMin l = none ↔ l = [] := by
  cases l with
  | nil => simp [pickMin]
  | cons p ps =>
    constructor
    · intro h
      cases hm : pickMin ps with
      | none =>
        rw [pickMin_cons_none hm] at h
        cases h
      | some q =>
        rw [pickMin_cons_some hm] at h
        by_cases hlt : phraseLt q p = true
        · rw [if_pos hlt] at h
          cases h
        · rw [if_neg hlt] at h
          cases h
    · intro h
      cases h

theorem pickMin_mem {l : List Phrase} {r : Phrase} (h : pickMin l = some r) : r ∈ l := by
  induction l with
  | nil => simp [pickMin] at h
  | cons p ps ih =>
    cases hm : pickMin ps with
    | none =>
      rw [pickMin_cons_none hm] at h
      simp only [Option.some.injEq] at h
      subst h
      exact List.mem_cons_self _ _
    | some q =>
      rw [pickMin_cons_some hm] at h
      by_cases hlt : phraseLt q p = true
      · rw [if_pos hlt] at h
        simp only [Option.some.injEq] at h
        subst h
        exact List.mem_cons_of_mem _ (ih hm)
      · rw [if_neg hlt] at h
        simp only [Option.some.injEq] at h
        subst h
        exact List.mem_cons_self _ _

theorem pickMin_min {l : List Phrase} : ∀ {r : Phrase}, pickMin l = some r →
    ∀ p ∈ l, phraseLt p r = false := by
  induction l with
  | nil => intro r h; simp [pickMin] at h
  | cons p ps ih =>
    intro r h
    cases hm : pickMin ps with
    | none =>
      rw [pickMin_cons_none hm] at h
      simp only [Option.some.injEq] at h
      subst h
      have hps : ps = [] := pickMin_eq_none.mp hm
      subst hps
      intro x hx
      simp only [List.mem_singleton] at hx
      subst hx
      exact phraseLt_irrefl _
    | some q =>
      rw [pickMin_cons_some hm] at h
      by_cases hlt : phraseLt q p = true
      · rw [if_pos hlt] at h
        simp only [Option.some.injEq] at h
        subst h
        intro x hx
        rcases List.mem_cons.mp hx with rfl | hx
        · exact phraseLt_asymm hlt
        · exact ih hm x hx
      · rw [if_neg hlt] at h
        simp only [Option.some.injEq] at h
        subst h
        have hqp : phraseLt q p = false := by simpa using hlt
        intro x hx
        rcases List.mem_cons.mp hx with rfl | hx
        · exact phraseLt_irrefl _
        · cases hxp : phraseLt x p
          · rfl
          · exact absurd (phraseLt_weak_trans (ih hm x hx) hxp) (by simp [hqp])

theorem getNextPhrase_mem {st : DBState} {r : Phrase} (h : getNextPhrase st = some r) :
    r ∈ st.phrases ∧ r.completed = false := by
  have hm := List.mem_filter.mp (pickMin_mem h)
  exact ⟨hm.1, by simpa using hm.2⟩

theorem getNextPhrase_eq_none {st : DBState} :
    getNextPhrase st = none ↔ ∀ p ∈ st.phrases, p.completed = true := by
  unfold getNextPhrase
  rw [pickMin_eq_none, List.filter_eq_nil_iff]
  constructor
  · intro h p hp
    have := h p hp
    simpa using this
  · intro h p hp
    simp [h p hp]

theorem getNextPhrase_not_beaten {st : DBState} {r : Phrase}
    (h : getNextPhrase st = some r) :
    ∀ p ∈ st.phrases, p.completed = false → phraseLt p r = false := by
  intro p hp hpc
  exact pickMin_min h p (List.mem_filter.mpr ⟨hp, by simp [hpc]⟩)

/-! Structural lemmas about the import transaction loop. -/

theorem insertTx_cons_skip {es : List String} {now : Nat} {st : DBState}
    {ins skip : Nat} {c : Candidate} {cs : List Candidate}
    (h : es.contains (candKey c) = true) :
    insertTx es now st ins skip (c :: cs) = insertTx es now st ins (skip + 1) cs := by
  simp only [insertTx]
  rw [if_pos h]

theorem insertTx_cons_insert {es : List String} {now : Nat} {st : DBState}
    {ins skip : Nat} {c : Candidate} {cs : List Candidate} {l : Level}
    (h : es.contains (candKey c) = false)
    (hl : Level.ofString? (c.level.getD ("")) = some l) :
    insertTx es now st ins skip (c :: cs) =
      insertTx es now (insertRow st now (c.ru.getD ("")) (c.en.getD ("")) l)
        (ins + 1) skip cs := by
  simp only [insertTx]
  rw [if_neg (by simp_all), hl]

theorem insertTx_cons_badlevel {es : List String} {now : Nat} {st : DBState}
    {ins skip : Nat} {c : Candidate} {cs : List Candidate}
    (h : es.contains (candKey c) = false)
    (hl : Level.ofString? (c.level.getD ("")) = none) :
    insertTx es now st ins skip (c :: cs) = insertTx es now st ins skip cs := by
  simp only [insertTx]
  rw [if_neg (by simp_all), hl]

theorem insertRow_mem {st : DBState} {now : Nat} {ru en : String} {l : Level}
    {p : Phrase} (hp : p ∈ st.phrases) : p ∈ (insertRow st now ru en l).phrases := by
  simp [insertRow, hp]

theorem insertTx_mem_mono (es : List String) (now : Nat) :
    ∀ (cs : List Candidate) (st : DBState) (ins skip : Nat) {p : Phrase},
      p ∈ st.phrases → p ∈ (insertTx es now st ins skip cs).1.phrases := by
  intro cs
  induction cs with
  | nil => intro st ins skip p hp; simpa [insertTx] using hp
  | cons c cs ih =>
    intro st ins skip p hp
    by_cases hc : es.contains (candKey c) = true
    · rw [insertTx_cons_skip hc]
      exact ih _ _ _ hp
    · have hc2 : es.contains (candKey c) = false := by simpa using hc
      cases hl : Level.ofString? (c.level.getD ("")) with
      | some l =>
        rw [insertTx_cons_insert hc2 hl]
        exact ih _ _ _ (insertRow_mem hp)
      | none =>
        rw [insertTx_cons_badlevel hc2 hl]
        exact ih _ _ _ hp

theorem insertTx_nextId_mono (es : List String) (now : Nat) :
    ∀ (cs : List Candidate) (st : DBState) (ins skip : Nat),
      st.nextId ≤ (insertTx es now st ins skip cs).1.nextId := by
  intro cs
  induction cs with
  | nil => intro st ins skip; simp [insertTx]
  | cons c cs ih =>
    intro st ins skip
    by_cases hc : es.contains (candKey c) = true
    · rw [insertTx_cons_skip hc]
      exact ih _ _ _
    · have hc2 : es.contains (candKey c) = false := by simpa using hc
      cases hl : Level.ofString? (c.level.getD ("")) with
      | some l =>
        rw [insertTx_cons_insert hc2 hl]
        calc st.nextId
            ≤ (insertRow st now (c.ru.getD ("")) (c.en.getD ("")) l).nextId := by
              simp [insertRow]
          _ ≤ _ := ih _ _ _
      | none =>
        rw [insertTx_cons_badlevel hc2 hl]
        exact ih _ _ _

theorem insertTx_provenance (es : List String) (now : Nat) :
    ∀ (cs : List Candidate) (st : DBState) (ins skip : Nat),
      ∀ p ∈ (insertTx es now st ins skip cs).1.phrases,
        p ∈ st.phrases ∨ (st.nextId ≤ p.id ∧ p.completed = false ∧
          ∃ c ∈ cs, p.ru = c.ru.getD ("") ∧ p.en = c.en.getD ("") ∧
            Level.ofString? (c.level.getD ("")) = some p.level) := by
  intro cs
  induction cs with
  | nil => intro st ins skip p hp; exact Or.inl (by simpa [insertTx] using hp)
  | cons c cs ih =>
    intro st ins skip p hp
    by_cases hc : es.contains (candKey c) = true
    · rw [insertTx_cons_skip hc] at hp
      rcases ih _ _ _ p hp with h | ⟨hid, hcomp, c2, hc2, hfields⟩
      · exact Or.inl h
      · exact Or.inr ⟨hid, hcomp, c2, List.mem_cons_of_mem _ hc2, hfields⟩
    · have hcf : es.contains (candKey c) = false := by simpa using hc
      cases hl : Level.ofString? (c.level.getD ("")) with
      | some l =>
        rw [insertTx_cons_insert hcf hl] at hp
        rcases ih _ _ _ p hp with h | ⟨hid, hcomp, c2, hc2, hfields⟩
        · have h3 : p ∈ st.phrases ∨
              p = ⟨st.nextId, c.ru.getD (""), c.en.getD (""), l, false, now, now⟩ := by
            simpa [insertRow] using h
          rcases h3 with h2 | h2
          · exact Or.inl h2
          · subst h2
            exact Or.inr ⟨le_refl _, rfl, c, List.mem_cons_self _ _, rfl, rfl, hl⟩
        · refine Or.inr ⟨?_, hcomp, c2, List.mem_cons_of_mem _ hc2, hfields⟩
          simp only [insertRow] at hid
          omega
      | none =>
        rw [insertTx_cons_badlevel hcf hl] at hp
        rcases ih _ _ _ p hp with h | ⟨hid, hcomp, c2, hc2, hfields⟩
        · exact Or.inl h
        · exact Or.inr ⟨hid, hcomp, c2, List.mem_cons_of_mem _ hc2, hfields⟩

theorem insertRow_wf {st : DBState} {now : Nat} {ru en : String} {l : Level}
    (h : wf st) : wf (insertRow st now ru en l) := by
  intro p hp
  have h3 : p ∈ st.phrases ∨ p = ⟨st.nextId, ru, en, l, false, now, now⟩ := by
    simpa [insertRow] using hp
  rcases h3 with h2 | h2
  · have := h p h2
    simp only [insertRow]
    omega
  · subst h2
    simp [insertRow]

theorem insertTx_wf (es : List String) (now : Nat) :
    ∀ (cs : List Candidate) (st : DBState) (ins skip : Nat),
      wf st → wf (insertTx es now st ins skip cs).1 := by
  intro cs
  induction cs with
  | nil => intro st ins skip h; simpa [insertTx] using h
  | cons c cs ih =>
    intro st ins skip h
    by_cases hc : es.contains (candKey c) = true
    · rw [insertTx_cons_skip hc]
      exact ih _ _ _ h
    · have hcf : es.contains (candKey c) = false := by simpa using hc
      cases hl : Level.ofString? (c.level.getD ("")) with
      | some l =>
        rw [insertTx_cons_insert hcf hl]
        exact ih _ _ _ (insertRow_wf h)
      | none =>
        rw [insertTx_cons_badlevel hcf hl]
        exact ih _ _ _ h

theorem insertTx_all_skip (es : List String) (now : Nat) :
    ∀ (cs : List Candidate) (st : DBState) (ins skip : Nat),
      (∀ c ∈ cs, es.contains (candKey c) = true) →
      insertTx es now st ins skip cs = (st, ins, skip + cs.length) := by
  intro cs
  induction cs with
  | nil => intro st ins skip _; simp [insertTx]
  | cons c cs ih =>
    intro st ins skip h
    rw [insertTx_cons_skip (h c (List.mem_cons_self _ _))]
    rw [ih _ _ _ fun c2 hc2 => h c2 (List.mem_cons_of_mem _ hc2)]
    have harith : skip + 1 + cs.length = skip + (c :: cs).length := by
      simp only [List.length_cons]
      omega
    rw [harith]

theorem existingKeys_insertRow {st : DBState} {now : Nat} {ru en : String}
    {l : Level} {k : String} (hk : k ∈ existingKeys st) :
    k ∈ existingKeys (insertRow st now ru en l) := by
  obtain ⟨p, hp, hkey⟩ := List.mem_map.mp hk
  exact List.mem_map.mpr ⟨p, insertRow_mem hp, hkey⟩

theorem existingKeys_insertTx {es : List String} {now : Nat}
    {cs : List Candidate} {st : DBState} {ins skip : Nat} {k : String}
    (hk : k ∈ existingKeys st) :
    k ∈ existingKeys (insertTx es now st ins skip cs).1 := by
  obtain ⟨p, hp, hkey⟩ := List.mem_map.mp hk
  exact List.mem_map.mpr ⟨p, insertTx_mem_mono _ _ _ _ _ _ hp, hkey⟩

theorem validCand_fields {c : Candidate} (h : validCand c = true) :
    (∃ s, c.ru = some s ∧ s ≠ "") ∧ (∃ s, c.en = some s ∧ s ≠ "") ∧
    (∃ s, c.level = some s ∧ s ∈ LEVELS) := by
  unfold validCand strTruthy levelIncluded at h
  cases hru : c.ru <;> cases hen : c.en <;> cases hlv : c.level <;>
    simp_all [List.elem_iff]

theorem validCand_level {c : Candidate} (h : validCand c = true) :
    ∃ l, Level.ofString? (c.level.getD ("")) = some l := by
  obtain ⟨-, -, s, hs, hmem⟩ := validCand_fields h
  rw [hs]
  simpa using mem_LEVELS_iff.mp hmem

theorem insertTx_key_mem (es : List String) (now : Nat) :
    ∀ (cs : List Candidate) (st : DBState) (ins skip : Nat),
      (∀ k ∈ es, k ∈ existingKeys st) →
      ∀ c ∈ cs, validCand c = true →
        candKey c ∈ existingKeys (insertTx es now st ins skip cs).1 := by
  intro cs
  induction cs with
  | nil => intro st ins skip _ c hc; simp at hc
  | cons c0 cs ih =>
    intro st ins skip hsub c hc hv
    by_cases hcont : es.contains (candKey c0) = true
    · rw [insertTx_cons_skip hcont]
      rcases List.mem_cons.mp hc with rfl | hc
      · exact existingKeys_insertTx (hsub _ (List.elem_iff.mp hcont))
      · exact ih _ _ _ hsub c hc hv
    · have hcf : es.contains (candKey c0) = false := by simpa using hcont
      rcases List.mem_cons.mp hc with rfl | hc
      · obtain ⟨l, hl⟩ := validCand_level hv
        rw [insertTx_cons_insert hcf hl]
        have hkey : phraseKey
            ⟨st.nextId, c.ru.getD (""), c.en.getD (""), l, false, now, now⟩ =
            candKey c := by
          simp [phraseKey, candKey, Level.toStr_ofString hl]
        refine existingKeys_insertTx (List.mem_map.mpr ⟨_, ?_, hkey⟩)
        simp [insertRow]
      · cases hl : Level.ofString? (c0.level.getD ("")) with
        | some l =>
          rw [insertTx_cons_insert hcf hl]
          refine ih _ _ _ (fun k hk => existingKeys_insertRow (hsub k hk)) c hc hv
        | none =>
          rw [insertTx_cons_badlevel hcf hl]
          exact ih _ _ _ hsub c hc hv

theorem insertTx_nil (es : List String) (now : Nat) (st : DBState) (ins skip : Nat) :
    insertTx es now st ins skip [] = (st, ins, skip) := rfl

theorem importPhrases_empty {st : DBState} {now : Nat} {cands : List Candidate}
    (h : cands.filter validCand = []) :
    importPhrases st now cands = (st, .warning) := by
  simp [importPhrases, h]

theorem importPhrases_run {st : DBState} {now : Nat} {cands : List Candidate}
    (h : cands.filter validCand ≠ []) :
    importPhrases st now cands =
      ((insertTx (existingKeys st) now st 0 0 (cands.filter validCand)).1,
       .done (insertTx (existingKeys st) now st 0 0 (cands.filter validCand)).2.1
         (insertTx (existingKeys st) now st 0 0 (cands.filter validCand)).2.2) := by
  simp only [importPhrases]
  rw [if_neg (by simpa using h)]

theorem validCand_iff {c : Candidate} : validCand c = true ↔
    ((∃ s, c.ru = some s ∧ s ≠ "") ∧ (∃ s, c.en = some s ∧ s ≠ "") ∧
     (∃ s, c.level = some s ∧ s ∈ LEVELS)) := by
  obtain ⟨ru, en, lv⟩ := c
  unfold validCand strTruthy levelIncluded
  cases ru <;> cases en <;> cases lv <;> simp [List.elem_iff, and_assoc]

theorem filter_validCand_idem (cands : List Candidate) :
    (cands.filter validCand).filter validCand = cands.filter validCand := by
  induction cands with
  | nil => rfl
  | cons c cs ih => by_cases h : validCand c = true <;> simp [List.filter_cons, h, ih]

/-- C3 (amended): import is idempotent on the record set, and when the source
has at least one valid candidate the second run reports `inserted = 0` and
`skipped = N`, `N` the number of valid candidates.  (A source with zero valid
candidates reports the warning on both runs instead of `{0, 0}`; see the
counterexample.) -/
theorem import_idempotent (st : DBState) (now1 now2 : Nat) (cands : List Candidate)
    (h : cands.filter validCand ≠ []) :
    importPhrases (importPhrases st now1 cands).1 now2 cands =
      ((importPhrases st now1 cands).1,
       .done 0 (cands.filter validCand).length) := by
  have hrun1 := @importPhrases_run st now1 cands h
  have hkeys : ∀ c ∈ cands.filter validCand,
      candKey c ∈ existingKeys (importPhrases st now1 cands).1 := by
    intro c hc
    rw [hrun1]
    exact insertTx_key_mem _ _ _ _ _ _ (fun k hk => hk) c hc (List.mem_filter.mp hc).2
  rw [importPhrases_run h]
  rw [insertTx_all_skip _ _ _ _ _ _ fun c hc => List.elem_iff.mpr (hkeys c hc)]
  simp

/-- Witness for C3 at a concrete one-candidate source imported onto the empty
store: the second run inserts nothing and skips the one valid candidate. -/
theorem import_idempotent_witness :
    importPhrases (importPhrases emptyDB 0 [candPrivet]).1 1 [candPrivet] =
      ((importPhrases emptyDB 0 [candPrivet]).1,
       .done 0 ([candPrivet].filter validCand).length) :=
  import_idempotent emptyDB 0 1 [candPrivet] (by decide)

/-- Counterexample for C3 as stated: a source that parses as an array but has
zero valid candidates.  The first run makes no changes and `N = 0`; the claim
then promises a second-run report `inserted = 0, skipped = 0`, but the code
reports the zero-valid warning instead. -/
theorem import_idempotent_counterexample :
    (zeroValidSrc.filter validCand).length = 0 ∧
    (importPhrases (importPhrases emptyDB 0 zeroValidSrc).1 1 zeroValidSrc).2 =
      ImportResult.warning ∧
    ImportResult.warning ≠ ImportResult.done 0 0 :=
  ⟨by decide, by decide, by decide⟩

/-- C1 (amended): the dedup key set is computed once from the pre-import
snapshot and never extended during the batch loop, so two structurally
identical valid candidates in one batch are both inserted: the batch of two
copies of a fresh valid candidate reports `inserted = 2, skipped = 0` and
adds two records. -/
theorem intra_batch_duplicates_both_inserted (st : DBState) (now : Nat)
    (c : Candidate) (hv : validCand c = true)
    (hk : candKey c ∉ existingKeys st) :
    (importPhrases st now [c, c]).2 = .done 2 0 ∧
    (importPhrases st now [c, c]).1.phrases.length = st.phrases.length + 2 := by
  have hfil : [c, c].filter validCand = [c, c] := by simp [hv]
  have hne : [c, c].filter validCand ≠ [] := by simp [hfil]
  obtain ⟨l, hl⟩ := validCand_level hv
  have hcont : (existingKeys st).contains (candKey c) = false := by
    cases hb : (existingKeys st).contains (candKey c) with
    | false => rfl
    | true => exact absurd (List.elem_iff.mp hb) hk
  rw [importPhrases_run hne, hfil]
  rw [insertTx_cons_insert hcont hl, insertTx_cons_insert hcont hl, insertTx_nil]
  refine ⟨by simp, ?_⟩
  simp [insertRow]

/-- Witness for C1 (amended) at the empty store and the scenario candidate. -/
theorem intra_batch_duplicates_both_inserted_witness :
    (importPhrases emptyDB 0 [candPrivet, candPrivet]).2 = .done 2 0 ∧
    (importPhrases emptyDB 0 [candPrivet, candPrivet]).1.phrases.length =
      emptyDB.phrases.length + 2 :=
  intra_batch_duplicates_both_inserted emptyDB 0 candPrivet (by decide) (by decide)

/-- Counterexample for C1 as stated: the spec scenario batch on the empty
store reports `inserted = 2, skipped = 0` (not `inserted = 1, skipped = 1`)
and leaves two records, because the second identical candidate is checked
against the unchanged pre-import key set. -/
theorem scenario_intra_batch_counterexample :
    (importPhrases emptyDB 0 scenarioBatch).2 = ImportResult.done 2 0 ∧
    ImportResult.done 2 0 ≠ ImportResult.done 1 1 ∧
    (importPhrases emptyDB 0 scenarioBatch).1.phrases.length = 2 :=
  ⟨by decide, by decide, by decide⟩

/-- C2 (amended): a valid candidate is classified as a duplicate exactly when
its `|`-joined key string equals the key of some existing record; equal
(`source_text`, `target_text`, `level`) triples always collide (keys are
equal), but the converse fails when a text contains the delimiter — see the
counterexample. -/
theorem import_dedup_key_characterisation (st : DBState) (now : Nat)
    (c : Candidate) (hv : validCand c = true) :
    ((importPhrases st now [c]).2 = .done 0 1 ↔ candKey c ∈ existingKeys st) ∧
    (∀ p ∈ st.phrases, p.ru = c.ru.getD ("") → p.en = c.en.getD ("") →
      p.level.toStr = c.level.getD ("") →
      (importPhrases st now [c]).2 = .done 0 1) := by
  have hfil : [c].filter validCand = [c] := by simp [hv]
  have hne : [c].filter validCand ≠ [] := by simp [hfil]
  have hiff : (importPhrases st now [c]).2 = .done 0 1 ↔
      candKey c ∈ existingKeys st := by
    rw [importPhrases_run hne, hfil]
    by_cases hc : (existingKeys st).contains (candKey c) = true
    · rw [insertTx_cons_skip hc, insertTx_nil]
      simp [List.elem_iff.mp hc]
    · have hcf : (existingKeys st).contains (candKey c) = false := by simpa using hc
      obtain ⟨l, hl⟩ := validCand_level hv
      rw [insertTx_cons_insert hcf hl, insertTx_nil]
      constructor
      · intro h
        simp at h
      · intro h
        have hmem : (existingKeys st).contains (candKey c) = true :=
          List.elem_iff.mpr h
        rw [hcf] at hmem
        simp at hmem
  refine ⟨hiff, ?_⟩
  intro p hp hru hen hlv
  apply hiff.mpr
  refine List.mem_map.mpr ⟨p, hp, ?_⟩
  simp [phraseKey, candKey, hru, hen, hlv]

/-- Witness for C2 (amended): the collision candidate is classified as a
duplicate of the stored row because the joined keys are equal. -/
theorem import_dedup_key_characterisation_witness :
    (importPhrases collisionDB 1 [collisionCand]).2 = .done 0 1 :=
  (import_dedup_key_characterisation collisionDB 1 collisionCand (by decide)).1.mpr
    (by decide)

/-- Counterexample for C2 as stated: the candidate `(a, b|c, A1)` is counted
as a duplicate of the stored row `(a|b, c, A1)` although no stored record has
a componentwise-equal triple — the `|` delimiter collides. -/
theorem delimiter_collision_counterexample :
    (importPhrases collisionDB 1 [collisionCand]).2 = ImportResult.done 0 1 ∧
    ¬ ∃ p ∈ collisionDB.phrases,
        p.ru = collisionCand.ru.getD ("") ∧ p.en = collisionCand.en.getD ("") ∧
        p.level.toStr = collisionCand.level.getD ("") :=
  ⟨by decide, by decide⟩

/-- C9: a candidate is valid iff `ru` is present and non-empty, `en` is
present and non-empty, and `level` is in the enumeration; dropping the
invalid candidates changes nothing (import of a batch equals import of its
valid sublist, so invalid candidates affect neither storage nor counts); and
every row ever present after an import is either pre-existing or comes from
a valid candidate of the batch. -/
theorem import_validation_filter (st : DBState) (now : Nat)
    (cands : List Candidate) :
    (∀ c, validCand c = true ↔
      ((∃ s, c.ru = some s ∧ s ≠ "") ∧ (∃ s, c.en = some s ∧ s ≠ "") ∧
       (∃ s, c.level = some s ∧ s ∈ LEVELS))) ∧
    importPhrases st now cands = importPhrases st now (cands.filter validCand) ∧
    (∀ p ∈ (importPhrases st now cands).1.phrases, p ∈ st.phrases ∨
      ∃ c ∈ cands, validCand c = true ∧ p.ru = c.ru.getD ("") ∧
        p.en = c.en.getD ("") ∧
        Level.ofString? (c.level.getD ("")) = some p.level) := by
  refine ⟨fun c => validCand_iff, ?_, ?_⟩
  · simp only [importPhrases, filter_validCand_idem]
  · by_cases hemp : cands.filter validCand = []
    · rw [importPhrases_empty hemp]
      intro p hp
      exact Or.inl hp
    · rw [importPhrases_run hemp]
      intro p hp
      rcases insertTx_provenance _ _ _ _ _ _ p hp with h | ⟨_, _, c, hc, hf⟩
      · exact Or.inl h
      · have hcm := List.mem_filter.mp hc
        exact Or.inr ⟨c, hcm.1, hcm.2, hf⟩

/-- Witness for C9: importing the scenario batch equals importing only its
valid candidates. -/
theorem import_validation_filter_witness :
    importPhrases emptyDB 0 scenarioBatch =
      importPhrases emptyDB 0 (scenarioBatch.filter validCand) :=
  (import_validation_filter emptyDB 0 scenarioBatch).2.1

/-- C4: `nextDuePhrase` returns the single highest-priority incomplete record
(or none exactly when every record is complete); no record of strictly lower
level rank is skipped over, and within a level the earliest `updated_at`
wins. -/
theorem nextDuePhrase_priority (st : DBState) :
    (∀ r, getNextPhrase st = some r → r ∈ st.phrases ∧ r.completed = false) ∧
    (getNextPhrase st = none ↔ ∀ p ∈ st.phrases, p.completed = true) ∧
    (∀ p q, p ∈ st.phrases → q ∈ st.phrases → p.completed = false →
      q.completed = false → p.level.rank < q.level.rank →
      getNextPhrase st ≠ some q) ∧
    (∀ p q, p ∈ st.phrases → q ∈ st.phrases → p.completed = false →
      q.completed = false → p.level.rank = q.level.rank →
      p.updated_at < q.updated_at → getNextPhrase st ≠ some q) := by
  refine ⟨fun r h => getNextPhrase_mem h, getNextPhrase_eq_none, ?_, ?_⟩
  · intro p q hp _ hpc _ hrank hsome
    have hno := getNextPhrase_not_beaten hsome p hp hpc
    have hyes : phraseLt p q = true := phraseLt_iff.mpr (Or.inl hrank)
    simp [hyes] at hno
  · intro p q hp _ hpc _ hrank hupd hsome
    have hno := getNextPhrase_not_beaten hsome p hp hpc
    have hyes : phraseLt p q = true := phraseLt_iff.mpr (Or.inr ⟨hrank, hupd⟩)
    simp [hyes] at hno

/-- Witness for C4 at a concrete store: the incomplete A1 phrase blocks the
incomplete B1 phrase from being returned. -/
theorem nextDuePhrase_priority_witness :
    getNextPhrase twoPhraseDB ≠ some ⟨1, "a", "b", .B1, false, 0, 5⟩ :=
  (nextDuePhrase_priority twoPhraseDB).2.2.1
    ⟨2, "c", "d", .A1, false, 0, 9⟩ ⟨1, "a", "b", .B1, false, 0, 5⟩
    (by decide) (by decide) (by decide) (by decide) (by decide)

/-! C8: the `updateStatus` contract. -/

/-- C8: `setCompleted(id, flag)` reports the number of matching rows as
`changes`; an unknown id yields zero changes and an unchanged store, without
raising an error (the operation is total and returns normally); and every
matching row is rewritten with the requested flag and a refreshed
`updated_at`, while non-matching rows are kept untouched. -/
theorem setCompleted_contract (st : DBState) (now i : Nat) (b : Bool) :
    (updateStatus st now i b).2 =
      (st.phrases.filter (fun p => p.id = i)).length ∧
    ((st.phrases.filter (fun p => p.id = i)).length = 0 →
      updateStatus st now i b = (st, 0)) ∧
    (∀ p ∈ st.phrases,
      (p.id = i → ({ p with completed := b, updated_at := now } : Phrase) ∈
        (updateStatus st now i b).1.phrases) ∧
      (p.id ≠ i → p ∈ (updateStatus st now i b).1.phrases)) := by
  refine ⟨rfl, ?_, ?_⟩
  · intro h
    have hnil : st.phrases.filter (fun p => p.id = i) = [] :=
      List.length_eq_zero.mp h
    have hmap : st.phrases.map
        (fun p => if p.id = i then
          { p with completed := b, updated_at := now } else p) = st.phrases := by
      conv_rhs => rw [← List.map_id st.phrases]
      refine List.map_congr_left ?_
      intro p hp
      have hne : ¬ p.id = i := by
        intro hpe
        have hmem : p ∈ st.phrases.filter (fun p => p.id = i) :=
          List.mem_filter.mpr ⟨hp, by simp [hpe]⟩
        rw [hnil] at hmem
        cases hmem
      simp [hne]
    unfold updateStatus
    rw [hmap, h]
  · intro p hp
    constructor
    · intro hpe
      refine List.mem_map.mpr ⟨p, hp, ?_⟩
      simp [hpe]
    · intro hne
      refine List.mem_map.mpr ⟨p, hp, ?_⟩
      simp [hne]

/-- Witness for C8: updating an id that is not present returns zero changes
and leaves the store untouched. -/
theorem setCompleted_contract_witness :
    updateStatus twoPhraseDB 9 99 true = (twoPhraseDB, 0) :=
  (setCompleted_contract twoPhraseDB 9 99 true).2.1 (by decide)

/-! C10: schema CHECK constraints. -/

/-- C10: the schema CHECK constraints enforce the record invariants at the
storage layer: a direct `insertPhrase` with an empty `ru`, an empty `en`, or
a level outside the enumeration throws (no `ok` state is produced, so
storage is unchanged), a successful insert implies all three checks passed
and appends exactly one row, and success preserves non-emptiness of every
stored text (`level` membership in the enumeration holds for every stored
row by construction of the `Level` type). -/
theorem schema_check_constraints (st : DBState) (now : Nat) (ru en lvl : String) :
    (¬ (ru ≠ "" ∧ en ≠ "" ∧ lvl ∈ LEVELS) →
      (insertPhrase st now ru en lvl).toOption = none) ∧
    (∀ st2, insertPhrase st now ru en lvl = .ok st2 →
      (ru ≠ "" ∧ en ≠ "" ∧ lvl ∈ LEVELS) ∧
      st2.phrases.length = st.phrases.length + 1 ∧
      ((∀ p ∈ st.phrases, p.ru ≠ "" ∧ p.en ≠ "") →
        ∀ p ∈ st2.phrases, p.ru ≠ "" ∧ p.en ≠ "")) := by
  constructor
  · intro hbad
    unfold insertPhrase
    split_ifs with h1 h2
    · rfl
    · rfl
    · cases hl : Level.ofString? lvl with
      | none => rfl
      | some l =>
        exfalso
        apply hbad
        refine ⟨?_, ?_, mem_LEVELS_iff.mpr ⟨l, hl⟩⟩
        · intro he
          subst he
          simp at h1
        · intro he
          subst he
          simp at h2
  · intro st2 hok
    unfold insertPhrase at hok
    by_cases h1 : ru.length = 0
    case pos =>
      rw [if_pos h1] at hok
      cases hok
    rw [if_neg h1] at hok
    by_cases h2 : en.length = 0
    case pos =>
      rw [if_pos h2] at hok
      cases hok
    rw [if_neg h2] at hok
    cases hl : Level.ofString? lvl with
      | none =>
        rw [hl] at hok
        cases hok
      | some l =>
        rw [hl] at hok
        have hok2 : insertRow st now ru en l = st2 := by
          cases hok
          rfl
        subst hok2
        refine ⟨⟨?_, ?_, mem_LEVELS_iff.mpr ⟨l, hl⟩⟩, by simp [insertRow], ?_⟩
        · intro he
          subst he
          simp at h1
        · intro he
          subst he
          simp at h2
        · intro hinv p hp
          have h3 : p ∈ st.phrases ∨ p = ⟨st.nextId, ru, en, l, false, now, now⟩ := by
            simpa [insertRow] using hp
          rcases h3 with h4 | h4
          · exact hinv p h4
          · subst h4
            refine ⟨?_, ?_⟩
            · intro he
              subst he
              simp at h1
            · intro he
              subst he
              simp at h2

/-- Witness for C10: inserting an empty `ru` directly is rejected by the
CHECK constraint. -/
theorem schema_check_constraints_witness :
    (insertPhrase emptyDB 0 ("") ("x") ("A1")).toOption = none :=
  (schema_check_constraints emptyDB 0 ("") ("x") ("A1")).1 (by decide)

/-! C7: per-level statistics. -/

theorem statFun_some {ps : List Phrase} {l : Level} {row : StatRow}
    (h : statFun ps l = some row) :
    row.level = l ∧ row.total = (ps.filter fun p => p.level = l).length ∧
    0 < row.total ∧ row.total = row.completed + row.remaining := by
  simp only [statFun] at h
  by_cases h0 : (ps.filter fun p => p.level = l).length = 0
  · rw [if_pos h0] at h
    cases h
  · rw [if_neg h0] at h
    cases h
    refine ⟨rfl, rfl, Nat.pos_of_ne_zero h0, ?_⟩
    have hsplit := @List.length_eq_length_filter_add Phrase
      (ps.filter fun p => p.level = l) (fun p => p.completed = true)
    have hfe : (ps.filter fun p => p.level = l).filter
          (fun p => !(decide (p.completed = true))) =
        (ps.filter fun p => p.level = l).filter (fun p => p.completed = false) := by
      refine List.filter_congr ?_
      intro p _
      cases hc : p.completed <;> rfl
    rw [hfe] at hsplit
    exact hsplit

theorem sum_level_counts (ps : List Phrase) :
    (allLevels.map fun l => (ps.filter fun p => p.level = l).length).sum =
      ps.length := by
  induction ps with
  | nil => simp
  | cons p ps ih =>
    have hsplit : ∀ l : Level, ((p :: ps).filter fun q => q.level = l).length =
        (if p.level = l then 1 else 0) +
          (ps.filter fun q => q.level = l).length := by
      intro l
      by_cases h : p.level = l <;> (simp [List.filter_cons, h]; try omega)
    have hadd : ∀ (ls : List Level) (f g : Level → Nat),
        (ls.map fun l => f l + g l).sum = (ls.map f).sum + (ls.map g).sum := by
      intro ls f g
      induction ls with
      | nil => rfl
      | cons l2 ls2 ih2 =>
        simp only [List.map_cons, List.sum_cons, ih2]
        omega
    have hone : (allLevels.map fun l => if p.level = l then 1 else 0).sum = 1 := by
      cases hp : p.level <;> decide
    simp only [hsplit]
    rw [hadd, ih, hone]
    simp only [List.length_cons]
    omega

theorem getStats_total_sum (st : DBState) :
    ((getStats st).map (fun r => r.total)).sum = st.phrases.length := by
  have hgen : ∀ ls : List Level,
      ((ls.filterMap (statFun st.phrases)).map (fun r => r.total)).sum =
      (ls.map fun l => (st.phrases.filter fun p => p.level = l).length).sum := by
    intro ls
    induction ls with
    | nil => rfl
    | cons l ls ih =>
      rw [List.filterMap_cons, List.map_cons, List.sum_cons]
      cases hs : statFun st.phrases l with
      | none =>
        have h0 : (st.phrases.filter fun p => p.level = l).length = 0 := by
          by_contra h0
          simp only [statFun] at hs
          rw [if_neg h0] at hs
          cases hs
        rw [ih, h0]
        omega
      | some row =>
        rw [List.map_cons, List.sum_cons, ih]
        have hr := (statFun_some hs).2.1
        omega
  show ((allLevels.filterMap (statFun st.phrases)).map (fun r => r.total)).sum =
    st.phrases.length
  rw [hgen allLevels, sum_level_counts]

theorem getStats_sorted (st : DBState) :
    ((getStats st).map (fun r => r.level)).Pairwise (fun a b => a.rank < b.rank) := by
  have hgen : ∀ ls : List Level, ls.Pairwise (fun a b => a.rank < b.rank) →
      ((ls.filterMap (statFun st.phrases)).map (fun r => r.level)).Pairwise
        (fun a b => a.rank < b.rank) := by
    intro ls
    induction ls with
    | nil =>
      intro _
      exact List.Pairwise.nil
    | cons l ls ih =>
      intro hls
      have hp := List.pairwise_cons.mp hls
      rw [List.filterMap_cons]
      cases hs : statFun st.phrases l with
      | none => exact ih hp.2
      | some row =>
        rw [List.map_cons]
        refine List.Pairwise.cons ?_ (ih hp.2)
        intro y hy
        obtain ⟨row2, hrow2, hy2⟩ := List.mem_map.mp hy
        obtain ⟨l2, hl2, hs2⟩ := List.mem_filterMap.mp hrow2
        have h1 := (statFun_some hs).1
        have h2 := (statFun_some hs2).1
        subst hy2
        rw [h1, h2]
        exact hp.1 l2 hl2
  exact hgen allLevels (by decide)

theorem getStats_level_present (st : DBState) (l : Level) :
    (∃ row ∈ getStats st, row.level = l) ↔ ∃ p ∈ st.phrases, p.level = l := by
  constructor
  · rintro ⟨row, hrow, hlv⟩
    obtain ⟨l2, _, hs⟩ := List.mem_filterMap.mp hrow
    obtain ⟨h1, h2, h3, _⟩ := statFun_some hs
    have hlen : 0 < (st.phrases.filter fun p => p.level = l2).length := h2 ▸ h3
    obtain ⟨p, hp⟩ := List.exists_mem_of_length_pos hlen
    have hpm := List.mem_filter.mp hp
    refine ⟨p, hpm.1, ?_⟩
    have hple : p.level = l2 := by simpa using hpm.2
    rw [hple, ← h1, hlv]
  · rintro ⟨p, hp, hlv⟩
    have hlmem : l ∈ allLevels := by cases l <;> decide
    have hlen : (st.phrases.filter fun q => q.level = l).length ≠ 0 := by
      have hmem : p ∈ st.phrases.filter fun q => q.level = l :=
        List.mem_filter.mpr ⟨hp, by simp [hlv]⟩
      intro h0
      rw [List.length_eq_zero.mp h0] at hmem
      cases hmem
    refine ⟨⟨l, (st.phrases.filter fun q => q.level = l).length,
        ((st.phrases.filter fun q => q.level = l).filter
          fun q => q.completed = true).length,
        ((st.phrases.filter fun q => q.level = l).filter
          fun q => q.completed = false).length⟩,
      List.mem_filterMap.mpr ⟨l, hlmem, ?_⟩, rfl⟩
    simp only [statFun]
    rw [if_neg hlen]

/-- C7: every `statsByLevel` row satisfies `total = completed + remaining`
and covers at least one record, the totals sum to the full record count,
rows are ordered by strictly increasing level rank (hence one row per
level), and a level appears among the rows exactly when it has a record in
storage. -/
theorem statsByLevel_consistent (st : DBState) :
    (∀ row ∈ getStats st,
      row.total = row.completed + row.remaining ∧ 0 < row.total) ∧
    ((getStats st).map (fun r => r.total)).sum = st.phrases.length ∧
    ((getStats st).map (fun r => r.level)).Pairwise
      (fun a b => a.rank < b.rank) ∧
    (∀ l, (∃ row ∈ getStats st, row.level = l) ↔
      ∃ p ∈ st.phrases, p.level = l) := by
  refine ⟨?_, getStats_total_sum st, getStats_sorted st,
    fun l => getStats_level_present st l⟩
  intro row hrow
  obtain ⟨l2, _, hs⟩ := List.mem_filterMap.mp hrow
  obtain ⟨-, -, h3, h4⟩ := statFun_some hs
  exact ⟨h4, h3⟩

/-- Witness for C7 at a concrete store: the per-level totals sum to the
record count. -/
theorem statsByLevel_consistent_witness :
    ((getStats twoPhraseDB).map (fun r => r.total)).sum =
      twoPhraseDB.phrases.length :=
  (statsByLevel_consistent twoPhraseDB).2.1

/-! C6: completion monotonicity across operation sequences. -/

theorem updateStatus_wf {st : DBState} {now i : Nat} {b : Bool} (h : wf st) :
    wf (updateStatus st now i b).1 := by
  intro p hp
  simp only [updateStatus] at hp
  obtain ⟨q, hq, hqe⟩ := List.mem_map.mp hp
  show p.id < st.nextId
  by_cases hqi : q.id = i
  · rw [if_pos hqi] at hqe
    rw [← hqe]
    exact h q hq
  · rw [if_neg hqi] at hqe
    rw [← hqe]
    exact h q hq

theorem importPhrases_nextId_mono (st : DBState) (now : Nat)
    (cands : List Candidate) :
    st.nextId ≤ (importPhrases st now cands).1.nextId := by
  by_cases h : cands.filter validCand = []
  · rw [importPhrases_empty h]
  · rw [importPhrases_run h]
    exact insertTx_nextId_mono _ _ _ _ _ _

theorem importPhrases_wf {st : DBState} {now : Nat} {cands : List Candidate}
    (h : wf st) : wf (importPhrases st now cands).1 := by
  by_cases hemp : cands.filter validCand = []
  · rw [importPhrases_empty hemp]
    exact h
  · rw [importPhrases_run hemp]
    exact insertTx_wf _ _ _ _ _ _ h

theorem importPhrases_fresh (st : DBState) (now : Nat) (cands : List Candidate) :
    ∀ p ∈ (importPhrases st now cands).1.phrases,
      p ∈ st.phrases ∨ st.nextId ≤ p.id := by
  by_cases hemp : cands.filter validCand = []
  · rw [importPhrases_empty hemp]
    intro p hp
    exact Or.inl hp
  · rw [importPhrases_run hemp]
    intro p hp
    rcases insertTx_provenance _ _ _ _ _ _ p hp with h2 | ⟨hid, -, -⟩
    · exact Or.inl h2
    · exact Or.inr hid

theorem applyOps_keeps (i : Nat) :
    ∀ (ops : List Op) (st : DBState), wf st → i < st.nextId →
      (∀ p ∈ st.phrases, p.id = i → p.completed = true) →
      (∀ op ∈ ops, clearsId i op = false) →
      wf (applyOps st ops) ∧ i < (applyOps st ops).nextId ∧
        ∀ p ∈ (applyOps st ops).phrases, p.id = i → p.completed = true := by
  intro ops
  induction ops with
  | nil =>
    intro st h1 h2 h3 _
    exact ⟨h1, h2, h3⟩
  | cons op ops ih =>
    intro st h1 h2 h3 hops
    have hop := hops op (List.mem_cons_self _ _)
    have hstep : wf (applyOp st op) ∧ i < (applyOp st op).nextId ∧
        ∀ p ∈ (applyOp st op).phrases, p.id = i → p.completed = true := by
      cases op with
      | importOp now cands =>
        refine ⟨importPhrases_wf h1,
          lt_of_lt_of_le h2 (importPhrases_nextId_mono st now cands), ?_⟩
        intro p hp hpi
        rcases importPhrases_fresh st now cands p hp with hold | hnew
        · exact h3 p hold hpi
        · omega
      | statusOp now j b =>
        refine ⟨updateStatus_wf h1, h2, ?_⟩
        intro p hp hpi
        simp only [applyOp, updateStatus] at hp
        obtain ⟨q, hq, hqe⟩ := List.mem_map.mp hp
        by_cases hqj : q.id = j
        · rw [if_pos hqj] at hqe
          cases b with
          | true =>
            rw [← hqe]
          | false =>
            exfalso
            have hqid : q.id = i := by
              rw [← hqe] at hpi
              exact hpi
            have hclears : ¬ j = i := by
              simpa [clearsId] using hop
            exact hclears (by omega)
        · rw [if_neg hqj] at hqe
          rw [← hqe] at hpi ⊢
          exact h3 q hq hpi
    exact ih (applyOp st op) hstep.1 hstep.2.1 hstep.2.2
      (fun o ho => hops o (List.mem_cons_of_mem _ ho))

/-- C6: after `setCompleted(id, true)` on an id that exists in a well-formed
store, no sequence of further imports and status updates that does not
contain `setCompleted(id, false)` can make `nextDuePhrase` return that id
(fresh AUTOINCREMENT ids never collide with it, and its record stays
completed). -/
theorem completion_monotonic (st : DBState) (now i : Nat) (ops : List Op)
    (hwf : wf st) (hex : ∃ p ∈ st.phrases, p.id = i)
    (hops : ∀ op ∈ ops, clearsId i op = false) :
    ∀ q, getNextPhrase (applyOps (updateStatus st now i true).1 ops) = some q →
      q.id ≠ i := by
  obtain ⟨p0, hp0, hp0i⟩ := hex
  have h2 : i < st.nextId := hp0i ▸ hwf p0 hp0
  have h1wf : wf (updateStatus st now i true).1 := updateStatus_wf hwf
  have h1next : i < (updateStatus st now i true).1.nextId := h2
  have h1done : ∀ p ∈ (updateStatus st now i true).1.phrases,
      p.id = i → p.completed = true := by
    intro p hp hpi
    simp only [updateStatus] at hp
    obtain ⟨q, hq, hqe⟩ := List.mem_map.mp hp
    by_cases hqi : q.id = i
    · rw [if_pos hqi] at hqe
      rw [← hqe]
    · rw [if_neg hqi] at hqe
      rw [← hqe] at hpi
      exact absurd hpi hqi
  have hkeep := applyOps_keeps i ops _ h1wf h1next h1done hops
  intro q hq hqi
  have hmem := getNextPhrase_mem hq
  have hdone := hkeep.2.2 q hmem.1 hqi
  rw [hmem.2] at hdone
  cases hdone

/-- Witness for C6: after marking row 1 complete and importing a fresh
phrase (which gets id 2), the next due phrase is the imported row, whose id
differs from the completed one. -/
theorem completion_monotonic_witness :
    (⟨2, "Как дела?", "How are you?", Level.A1, false, 6, 6⟩ : Phrase).id ≠ 1 :=
  completion_monotonic onePhraseDB 5 1 [Op.importOp 6 [candKak]]
    (by unfold wf; decide)
    ⟨⟨1, "Привет", "Hello", Level.A1, false, 0, 0⟩, by decide, rfl⟩
    (by decide)
    ⟨2, "Как дела?", "How are you?", Level.A1, false, 6, 6⟩
    (by decide)

end Neurographia
